import Mathlib

/-!
Shallow embedding of the CodepageEncoder core (src/src/codepage-encoder.ts).

Modelling conventions:
* A JavaScript string is a list of UTF-16 code units (`List Nat`); the source
  iterates strings by code-unit index and reads `codePointAt`.
* A JavaScript number stored into a `Uint8Array` is reduced `% 256`.
* The static `definitions` / `aliases` registries (files generated at build
  time, not part of src/) are a parameter: an association list from codepage
  identifier to definition, looked up by exact key like a JS object property.
* `undefined` (absent property, hole in an array, failed index) is `Option`.
* The recursion over the `extends` chain is fuel-indexed; the JS code would
  diverge on a cyclic registry, and the registry is assumed acyclic, so every
  theorem here is stated for arbitrary fuel and never needs acyclicity.
-/

set_option maxRecDepth 16384

namespace CodepageEncoder

/-- One slot of a definition's `value` payload: a numeric code point, a nested
16-column row of optional code points (sparse-diff form), or an absent slot
(a hole / `undefined` in the generated array). -/
inductive Entry where
  | num (n : Nat)
  | row (cells : List (Option Nat))
  | absent
deriving DecidableEq

/-- A codepage definition record, as stored in the generated `definitions`
table: `name`, optional parent identifier (`extends` in the source, renamed
`ext` because `extends` is a Lean keyword), optional dense-form `offset`, and
the optional compacted `value` payload. -/
structure Codepage where
  name : String
  ext : Option String
  offset : Option Nat
  value : Option (List Entry)
deriving DecidableEq

/-- The static data consumed by the encoder: the `definitions` registry and
the `aliases` map, both generated at build time (not part of src/), modelled
as association lists with exact-key lookup. -/
structure Registry where
  definitions : List (String × Codepage)
  aliases : List (String × String)

/-- Exact-key association-list lookup, the model of a JS object property
access `obj[key]` (keys are unique in a JS object literal; first match). -/
def lookupStr {α : Type} (k : String) : List (String × α) → Option α
  | [] => none
  | (a, b) :: rest => if a = k then some b else lookupStr k rest

/-- Sequentially write an ordered block of optional cells into `tbl`,
starting at index `base`: cell `i` (when present) is written to `base + i`.
This is the common shape of both decode loops of `getCodepoints`
(src/src/codepage-encoder.ts lines 226-254): entries are visited in
increasing index order and non-numeric entries are skipped. -/
def applyCells (base : Nat) : List (Option Nat) → List Nat → List Nat
  | [], tbl => tbl
  | c :: rest, tbl =>
    applyCells (base + 1) rest (match c with | some n => tbl.set base n | none => tbl)

/-- The value (if any) that the cell block `cs` based at `base` writes to
table index `i`. -/
def cellOverride (base : Nat) (cs : List (Option Nat)) (i : Nat) : Option Nat :=
  if base ≤ i ∧ i < base + cs.length then (cs[i - base]?).join else none

/-- The numeric content of a `value` slot (`typeof subvalue === "number"` in
the source); rows and holes give `none`. -/
def entryNum : Entry → Option Nat
  | Entry.num n => some n
  | _ => none

/-- The row content of a `value` slot (`typeof value[i] === "object"` in the
source); numbers and holes give `none`. -/
def rowAt (v : List Entry) (i : Nat) : Option (List (Option Nat)) :=
  match v[i]? with
  | some (Entry.row r) => some r
  | _ => none

/-- Row-major flattening of the sparse-diff nested loops of `getCodepoints`
(lines 226-243): the source writes cell (i, j) of row `i` to index
`i * 16 + j`, scanning i = 0..15 and j = 0..15 in increasing order, which is
exactly one pass over indices 0..255 where index `idx` receives the cell at
row `idx / 16`, column `idx % 16` when that row is present and the cell
numeric. -/
def sparseCells (v : List Entry) : List (Option Nat) :=
  (List.range 256).map (fun idx =>
    match rowAt v (idx / 16) with
    | some r => (r[idx % 16]?).join
    | none => none)

/-- Overlay a definition's `value` payload on a base table, per the decode
rule of `getCodepoints` (lines 223-256): nothing when `value` is absent;
sparse-diff form when it has exactly 16 top-level slots; dense form at
`offset || 0` otherwise. -/
def applyValue (d : Codepage) (tbl : List Nat) : List Nat :=
  match d.value with
  | none => tbl
  | some v =>
    if v.length = 16 then applyCells 0 (sparseCells v) tbl
    else applyCells (d.offset.getD 0) (v.map entryNum) tbl

/-- The override (if any) that definition `d`'s own `value` supplies for
table index `i`, following the same shape dispatch as `applyValue`. -/
def overrideAt (d : Codepage) (i : Nat) : Option Nat :=
  match d.value with
  | none => none
  | some v =>
    if v.length = 16 then cellOverride 0 (sparseCells v) i
    else cellOverride (d.offset.getD 0) (v.map entryNum) i

/-- The numeric content of dense slot `k` of a payload (slot absent, a row,
or a hole all give `none`). -/
def numAt (v : List Entry) (k : Nat) : Option Nat :=
  (v[k]?).bind entryNum

/-- Alias resolution followed by the lenient fallback to "ascii", the common
prelude of `getEncoding` (lines 28-34). -/
def canonicalName (R : Registry) (cp : String) : String :=
  let cp1 := match lookupStr cp R.aliases with | some c => c | none => cp
  if (lookupStr cp1 R.definitions).isSome then cp1 else "ascii"

/-- Fuel-indexed model of `getCodepoints(codepage, true)` (lines 212-259),
for a `codepage` that is already canonical: start from the parent's resolved
table (obtained through `getEncoding`, hence through `canonicalName`) or from
256 sentinel entries, then overlay this definition's `value`.  The fuel only
bounds the `extends` recursion depth; the registry is acyclic so any
sufficiently large fuel gives the same table.  The `none` branch (canonical
name absent from the registry, possible only when "ascii" itself is missing)
is a crash in the JS source and is given a junk sentinel table here. -/
def resolveCodepoints (R : Registry) : Nat → String → List Nat
  | 0, _ => List.replicate 256 0xfffd
  | fuel + 1, cp =>
    match lookupStr cp R.definitions with
    | none => List.replicate 256 0xfffd
    | some d =>
      applyValue d
        (match d.ext with
         | none => List.replicate 256 0xfffd
         | some q => resolveCodepoints R fuel (canonicalName R q))

/-- The record returned by `getEncoding` (lines 27-43): the definition's own
metadata fields together with the resolved 256-entry codepoint table. -/
structure Encoding where
  name : String
  ext : Option String
  offset : Option Nat
  value : Option (List Entry)
  codepoints : List Nat
deriving DecidableEq

/-- Model of `getEncoding` (lines 27-43): canonicalize the identifier (alias
map, then lenient fallback to "ascii"), then pair the definition's metadata
with its resolved table.  The `none` branch is unreachable whenever "ascii"
is in the registry (in the JS source a missing "ascii" would throw). -/
def getEncoding (R : Registry) (fuel : Nat) (cp : String) : Encoding :=
  match lookupStr (canonicalName R cp) R.definitions with
  | some d =>
    { name := d.name, ext := d.ext, offset := d.offset, value := d.value,
      codepoints := resolveCodepoints R fuel (canonicalName R cp) }
  | none =>
    { name := "", ext := none, offset := none, value := none,
      codepoints := List.replicate 256 0xfffd }

/-- The resolved codepoint table that `getEncoding` returns for `cp`. -/
def getEncodingCodepoints (R : Registry) (fuel : Nat) (cp : String) : List Nat :=
  (getEncoding R fuel cp).codepoints

/-- UTF-16 high surrogate test. -/
def isHighSurrogate (u : Nat) : Bool := 0xD800 ≤ u && u ≤ 0xDBFF

/-- UTF-16 low surrogate test. -/
def isLowSurrogate (u : Nat) : Bool := 0xDC00 ≤ u && u ≤ 0xDFFF

/-- JavaScript `String.prototype.codePointAt` on a list of UTF-16 code
units: a high surrogate followed by a low surrogate combines into an astral
code point, anything else is returned as is.  Out of range (which the source
loops never produce, since they bound the index by the length) is junk 0. -/
def codePointAt (units : List Nat) (i : Nat) : Nat :=
  match units[i]? with
  | none => 0
  | some first =>
    if isHighSurrogate first then
      match units[i + 1]? with
      | some second =>
        if isLowSurrogate second then
          (first - 0xD800) * 0x400 + (second - 0xDC00) + 0x10000
        else first
      | none => first
    else first

/-- JavaScript `Array.prototype.findIndex` specialised to the scan
`(i) => i === codepoint` used by `encode` and `autoEncode`: index of the
first table entry equal to `cp`. -/
def findIndex (cp : Nat) : List Nat → Option Nat
  | [] => none
  | x :: xs => if x = cp then some 0 else (findIndex cp xs).map (· + 1)

/-- Model of `encode` (lines 103-119): one output byte per UTF-16 code unit
of the input; each byte is the first table index holding `codePointAt c`,
or 0x3F when the scan fails.  The `% 256` is the `Uint8Array` store. -/
def encode (R : Registry) (fuel : Nat) (input : List Nat) (codepage : String) : List Nat :=
  (List.range input.length).map (fun c =>
    match findIndex (codePointAt input c) (getEncodingCodepoints R fuel codepage) with
    | some pos => pos % 256
    | none => 0x3f)

/-- One fragment of `autoEncode`'s output: a codepage identifier and the
bytes encoded under it. -/
structure Fragment where
  codepage : String
  bytes : List Nat
deriving DecidableEq

/-- The in-progress fragment of `autoEncode`: `codepage` is `none` until a
codepage is first adopted (the source object starts without the property). -/
structure CurFrag where
  codepage : Option String
  chars : List Nat
deriving DecidableEq

/-- The loop state of `autoEncode`: the emitted fragments plus the current
fragment. -/
structure AEState where
  fragments : List Fragment
  cur : CurFrag
deriving DecidableEq

/-- JavaScript truthiness of a `string | undefined` value: `undefined` and
the empty string are falsy.  The source tests `currentFragment.codepage` and
`!availableCodepage` by truthiness. -/
def truthy : Option String → Bool
  | none => false
  | some s => s ≠ ""

/-- The candidate scan of `autoEncode` (lines 159-171): first candidate, in
rank order, whose resolved table contains the code point, together with the
found position. -/
def scanCandidates (R : Registry) (fuel : Nat) (cp : Nat) : List String → Option (String × Nat)
  | [] => none
  | cand :: rest =>
    match findIndex cp (getEncodingCodepoints R fuel cand) with
    | some pos => some (cand, pos)
    | none => scanCandidates R fuel cp rest

/-- The stickiness check of `autoEncode` (lines 146-156): when the current
fragment's codepage is truthy and its resolved table contains `cp`, keep
that codepage and its found position. -/
def stickyChoice (R : Registry) (fuel : Nat) (st : AEState) (cp : Nat) : Option (String × Nat) :=
  match st.cur.codepage with
  | some p =>
    if p = "" then none
    else
      match findIndex cp (getEncodingCodepoints R fuel p) with
      | some pos => some (p, pos)
      | none => none
  | none => none

/-- The codepage-and-position candidate after the stickiness check and the
candidate scan (lines 143-171): the scan runs only when stickiness produced
nothing. -/
def scannedChoice (R : Registry) (fuel : Nat) (candidates : List String) (st : AEState)
    (cp : Nat) : Option (String × Nat) :=
  match stickyChoice R fuel st cp with
  | some r => some r
  | none => scanCandidates R fuel cp candidates

/-- The `availableCodepage` and `char` chosen by one `autoEncode` iteration
(lines 143-176): the scanned choice, except that when it is still falsy
(`undefined`, or the empty string picked up from a falsy candidate
identifier), the fallback keeps the truthy current codepage or adopts
`candidates[0]`, with byte 0x3F.  The `% 256` on the found position is the
eventual `Uint8Array` store. -/
def chosenCodepage (R : Registry) (fuel : Nat) (candidates : List String) (st : AEState)
    (cp : Nat) : Option String × Nat :=
  match scannedChoice R fuel candidates st cp with
  | some (p, pos) =>
    if p = "" then (if truthy st.cur.codepage then st.cur.codepage else candidates.head?, 0x3f)
    else (some p, pos % 256)
  | none => (if truthy st.cur.codepage then st.cur.codepage else candidates.head?, 0x3f)

/-- One iteration of the `autoEncode` loop body (lines 140-193) on code
point `cp`: choose the codepage and byte, then, on a codepage change (`!==`
on `string | undefined`), flush the current fragment (only if its codepage
is truthy) and open a new one; finally append the byte (line 192). -/
def step (R : Registry) (fuel : Nat) (candidates : List String) (st : AEState) (cp : Nat) : AEState :=
  let chosen := chosenCodepage R fuel candidates st cp
  if st.cur.codepage = chosen.1 then
    { st with cur := { st.cur with chars := st.cur.chars ++ [chosen.2] } }
  else
    { fragments :=
        if truthy st.cur.codepage then
          st.fragments ++ [{ codepage := st.cur.codepage.getD "", bytes := st.cur.chars }]
        else st.fragments,
      cur := { codepage := chosen.1, chars := [chosen.2] } }

/-- The trailing flush of `autoEncode` (lines 195-200): the current fragment
is emitted only when its codepage is truthy. -/
def flush (st : AEState) : List Fragment :=
  if truthy st.cur.codepage then
    st.fragments ++ [{ codepage := st.cur.codepage.getD "", bytes := st.cur.chars }]
  else st.fragments

/-- Model of `autoEncode` (lines 128-203): fold the loop body over the code
points read at each UTF-16 code-unit index, then flush. -/
def autoEncode (R : Registry) (fuel : Nat) (input : List Nat) (candidates : List String) : List Fragment :=
  flush (((List.range input.length).map (codePointAt input)).foldl
    (step R fuel candidates) { fragments := [], cur := { codepage := none, chars := [] } })

/-- Total number of bytes across a fragment list. -/
def totalBytes (frags : List Fragment) : Nat :=
  (frags.map (fun f => f.bytes.length)).sum

/-- Number of Unicode code points represented by a list of UTF-16 code
units, per JavaScript string iteration: a high surrogate directly followed
by a low surrogate is one code point; every other unit is one code point.
This is the spec's "number of Unicode code points in s", used to state the
length claims; it is a spec-side notion, not a function of the source. -/
def codePointCount : List Nat → Nat
  | [] => 0
  | [_] => 1
  | u :: v :: rest =>
    if isHighSurrogate u && isLowSurrogate v then 1 + codePointCount rest
    else 1 + codePointCount (v :: rest)

/-- Validity of one sparse-row cell: a present code point is in Unicode
range (0xFFFD, the sentinel, included below that bound). -/
def cellValid : Option Nat → Prop
  | some n => n ≤ 0x10FFFF
  | none => True

instance : DecidablePred cellValid := fun c =>
  match c with
  | some n => inferInstanceAs (Decidable (n ≤ 0x10FFFF))
  | none => Decidable.isTrue trivial

/-- Validity of one `value` slot: numeric code points are in Unicode
range. -/
def entryValid : Entry → Prop
  | Entry.num n => n ≤ 0x10FFFF
  | Entry.row cells => ∀ c ∈ cells, cellValid c
  | Entry.absent => True

instance : DecidablePred entryValid := fun e =>
  match e with
  | Entry.num n => inferInstanceAs (Decidable (n ≤ 0x10FFFF))
  | Entry.row cells => inferInstanceAs (Decidable (∀ c ∈ cells, cellValid c))
  | Entry.absent => Decidable.isTrue trivial

/-- Validity of one stored definition: every numeric payload entry is a
Unicode code point, and a dense payload fits inside the 256-entry table
(`offset` plus payload length at most 256). -/
def cpageValid (d : Codepage) : Prop :=
  match d.value with
  | none => True
  | some v => (∀ e ∈ v, entryValid e) ∧ (v.length = 16 ∨ d.offset.getD 0 + v.length ≤ 256)

instance : DecidablePred cpageValid := fun d =>
  match hv : d.value with
  | none => Decidable.isTrue (by unfold cpageValid; rw [hv]; trivial)
  | some v => by unfold cpageValid; rw [hv]; infer_instance

/-- Modelled from the spec: well-formedness of the generated registry data
(the `definitions` file is build-time output, not part of src/).  Per §6 of
the spec every stored `value` holds Unicode code points, and a dense payload
is a slice of a 256-entry array placed at `offset`, so it fits in the
table. -/
def ValidRegistry (R : Registry) : Prop :=
  ∀ pd ∈ R.definitions, cpageValid pd.2

instance : DecidablePred (fun pd : String × Codepage => cpageValid pd.2) := fun pd =>
  inferInstanceAs (Decidable (cpageValid pd.2))

instance (R : Registry) : Decidable (ValidRegistry R) :=
  inferInstanceAs (Decidable (∀ pd ∈ R.definitions, cpageValid pd.2))

/-- The ascii definition used by the example registry: dense identity for
bytes 0-127 and 128 absent slots, exactly the shape the build step emits for
"ascii". -/
def asciiValue : List Entry :=
  (List.range 128).map Entry.num ++ List.replicate 128 Entry.absent

/-- Example "ascii" definition. -/
def asciiDef : Codepage :=
  { name := "ascii", ext := none, offset := none, value := some asciiValue }

/-- Example dense-form definition with an offset and no parent: code points
0x100 and 0x101 at bytes 65 and 67. -/
def dense1Def : Codepage :=
  { name := "dense one", ext := none, offset := some 65,
    value := some [Entry.num 0x100, Entry.absent, Entry.num 0x101] }

/-- Example sparse-diff definition extending "ascii": byte 0 remapped to
0x2500, everything else inherited. -/
def sparse1Def : Codepage :=
  { name := "sparse one", ext := some "ascii",
    offset := none,
    value := some (Entry.row [some 0x2500, none] :: List.replicate 15 Entry.absent) }

/-- A small concrete registry used by the witnesses and counterexamples. -/
def exampleR : Registry :=
  { definitions := [("ascii", asciiDef), ("d1", dense1Def), ("s1", sparse1Def)],
    aliases := [("us", "ascii")] }

/-- The UTF-16 encoding of one astral character (U+1F600, a surrogate
pair). -/
def emoji : List Nat := [0xD83D, 0xDE00]

/-! Helper lemmas about the cell-block writer. -/

theorem applyCells_length (cs : List (Option Nat)) :
    ∀ (base : Nat) (tbl : List Nat), (applyCells base cs tbl).length = tbl.length := by
  induction cs with
  | nil => intro base tbl; rfl
  | cons c rest ih =>
    intro base tbl
    cases c with
    | some n =>
      have h1 : applyCells base (some n :: rest) tbl = applyCells (base + 1) rest (tbl.set base n) := rfl
      rw [h1, ih, List.length_set]
    | none =>
      have h1 : applyCells base (none :: rest) tbl = applyCells (base + 1) rest tbl := rfl
      rw [h1, ih]

theorem cellOverride_cons (base : Nat) (c : Option Nat) (rest : List (Option Nat)) (i : Nat) :
    cellOverride base (c :: rest) i =
      if i = base then c else cellOverride (base + 1) rest i := by
  unfold cellOverride
  by_cases hib : i = base
  · subst hib
    rw [if_pos ⟨Nat.le_refl i, by simp only [List.length_cons]; omega⟩, if_pos rfl,
      Nat.sub_self]
    simp [Option.join]
  · rw [if_neg hib]
    by_cases hle : base + 1 ≤ i
    · obtain ⟨k, hk⟩ : ∃ k, i = base + k + 1 := ⟨i - base - 1, by omega⟩
      subst hk
      have h1 : base + k + 1 - base = k + 1 := by omega
      have h2 : base + k + 1 - (base + 1) = k := by omega
      rw [h1, h2]
      by_cases hk2 : k < rest.length
      · rw [if_pos ⟨by omega, by simp only [List.length_cons]; omega⟩,
          if_pos ⟨by omega, by omega⟩]
        simp
      · rw [if_neg (by simp only [List.length_cons]; omega), if_neg (by omega)]
    · rw [if_neg (by omega), if_neg (by omega)]

theorem applyCells_getElem? (cs : List (Option Nat)) :
    ∀ (base : Nat) (tbl : List Nat) (i : Nat),
      (applyCells base cs tbl)[i]? =
        match cellOverride base cs i with
        | some n => if i < tbl.length then some n else none
        | none => tbl[i]? := by
  induction cs with
  | nil =>
    intro base tbl i
    have h : cellOverride base [] i = none := by
      unfold cellOverride; rw [if_neg (by simp)]
    rw [h]; rfl
  | cons c rest ih =>
    intro base tbl i
    rw [cellOverride_cons]
    cases c with
    | some n =>
      have h1 : applyCells base (some n :: rest) tbl = applyCells (base + 1) rest (tbl.set base n) := rfl
      rw [h1, ih]
      by_cases hib : i = base
      · subst hib
        have hco : cellOverride (i + 1) rest i = none := by
          unfold cellOverride; rw [if_neg (by omega)]
        rw [hco, if_pos rfl]
        simp [List.getElem?_set]
      · rw [if_neg hib]
        have hset : (tbl.set base n)[i]? = tbl[i]? :=
          List.getElem?_set_ne (fun h => hib h.symm)
        cases hco : cellOverride (base + 1) rest i <;> simp [hset]
    | none =>
      have h1 : applyCells base (none :: rest) tbl = applyCells (base + 1) rest tbl := rfl
      rw [h1, ih]
      by_cases hib : i = base
      · subst hib
        have hco : cellOverride (i + 1) rest i = none := by
          unfold cellOverride; rw [if_neg (by omega)]
        rw [hco, if_pos rfl]
      · rw [if_neg hib]

theorem applyCells_mem (cs : List (Option Nat)) :
    ∀ (base : Nat) (tbl : List Nat) (x : Nat),
      x ∈ applyCells base cs tbl → x ∈ tbl ∨ some x ∈ cs := by
  induction cs with
  | nil => intro base tbl x h; exact Or.inl h
  | cons c rest ih =>
    intro base tbl x h
    cases c with
    | some n =>
      have h1 : applyCells base (some n :: rest) tbl = applyCells (base + 1) rest (tbl.set base n) := rfl
      rw [h1] at h
      rcases ih _ _ _ h with h2 | h2
      · rcases List.mem_or_eq_of_mem_set h2 with h3 | h3
        · exact Or.inl h3
        · exact Or.inr (by simp [h3])
      · exact Or.inr (List.mem_cons_of_mem _ h2)
    | none =>
      have h1 : applyCells base (none :: rest) tbl = applyCells (base + 1) rest tbl := rfl
      rw [h1] at h
      rcases ih _ _ _ h with h2 | h2
      · exact Or.inl h2
      · exact Or.inr (List.mem_cons_of_mem _ h2)

/-! Helper lemmas about the value overlay and the resolved table. -/

theorem sparseCells_length (v : List Entry) : (sparseCells v).length = 256 := by
  simp [sparseCells]

theorem applyValue_of_none (d : Codepage) (tbl : List Nat) (h : d.value = none) :
    applyValue d tbl = tbl := by
  unfold applyValue; rw [h]

theorem applyValue_of_some (d : Codepage) (v : List Entry) (tbl : List Nat)
    (h : d.value = some v) :
    applyValue d tbl =
      if v.length = 16 then applyCells 0 (sparseCells v) tbl
      else applyCells (d.offset.getD 0) (v.map entryNum) tbl := by
  unfold applyValue; rw [h]

theorem overrideAt_of_none (d : Codepage) (i : Nat) (h : d.value = none) :
    overrideAt d i = none := by
  unfold overrideAt; rw [h]

theorem overrideAt_of_some (d : Codepage) (v : List Entry) (i : Nat) (h : d.value = some v) :
    overrideAt d i =
      if v.length = 16 then cellOverride 0 (sparseCells v) i
      else cellOverride (d.offset.getD 0) (v.map entryNum) i := by
  unfold overrideAt; rw [h]

theorem applyValue_length (d : Codepage) (tbl : List Nat) :
    (applyValue d tbl).length = tbl.length := by
  cases hv : d.value with
  | none => rw [applyValue_of_none d tbl hv]
  | some v =>
    rw [applyValue_of_some d v tbl hv]
    split <;> rw [applyCells_length]

theorem applyValue_getElem? (d : Codepage) (tbl : List Nat) (i : Nat) (hi : i < tbl.length) :
    (applyValue d tbl)[i]? =
      match overrideAt d i with
      | some n => some n
      | none => tbl[i]? := by
  cases hv : d.value with
  | none => rw [applyValue_of_none d tbl hv, overrideAt_of_none d i hv]
  | some v =>
    rw [applyValue_of_some d v tbl hv, overrideAt_of_some d v i hv]
    by_cases hlen : v.length = 16
    · rw [if_pos hlen, if_pos hlen, applyCells_getElem?]
      cases cellOverride 0 (sparseCells v) i with
      | none => rfl
      | some n => exact if_pos hi
    · rw [if_neg hlen, if_neg hlen, applyCells_getElem?]
      cases cellOverride (d.offset.getD 0) (v.map entryNum) i with
      | none => rfl
      | some n => exact if_pos hi

theorem resolveCodepoints_zero (R : Registry) (cp : String) :
    resolveCodepoints R 0 cp = List.replicate 256 0xfffd := rfl

theorem resolveCodepoints_succ_unknown (R : Registry) (fuel : Nat) (cp : String)
    (h : lookupStr cp R.definitions = none) :
    resolveCodepoints R (fuel + 1) cp = List.replicate 256 0xfffd := by
  unfold resolveCodepoints; rw [h]

theorem resolveCodepoints_succ_base (R : Registry) (fuel : Nat) (cp : String) (d : Codepage)
    (h : lookupStr cp R.definitions = some d) (hext : d.ext = none) :
    resolveCodepoints R (fuel + 1) cp = applyValue d (List.replicate 256 0xfffd) := by
  conv_lhs => unfold resolveCodepoints
  rw [h]
  show applyValue d
      (match d.ext with
       | none => List.replicate 256 0xfffd
       | some q => resolveCodepoints R fuel (canonicalName R q)) = _
  rw [hext]

theorem resolveCodepoints_succ_ext (R : Registry) (fuel : Nat) (cp q : String) (d : Codepage)
    (h : lookupStr cp R.definitions = some d) (hext : d.ext = some q) :
    resolveCodepoints R (fuel + 1) cp =
      applyValue d (resolveCodepoints R fuel (canonicalName R q)) := by
  conv_lhs => unfold resolveCodepoints
  rw [h]
  show applyValue d
      (match d.ext with
       | none => List.replicate 256 0xfffd
       | some q2 => resolveCodepoints R fuel (canonicalName R q2)) = _
  rw [hext]

theorem resolveCodepoints_length (R : Registry) :
    ∀ (fuel : Nat) (cp : String), (resolveCodepoints R fuel cp).length = 256 := by
  intro fuel
  induction fuel with
  | zero => intro cp; rw [resolveCodepoints_zero, List.length_replicate]
  | succ n ih =>
    intro cp
    cases h : lookupStr cp R.definitions with
    | none => rw [resolveCodepoints_succ_unknown R n cp h, List.length_replicate]
    | some d =>
      cases hext : d.ext with
      | none =>
        rw [resolveCodepoints_succ_base R n cp d h hext, applyValue_length,
          List.length_replicate]
      | some q =>
        rw [resolveCodepoints_succ_ext R n cp q d h hext, applyValue_length, ih]

theorem getEncodingCodepoints_eq (R : Registry) (fuel : Nat) (cp : String) :
    getEncodingCodepoints R fuel cp = resolveCodepoints R fuel (canonicalName R cp) := by
  unfold getEncodingCodepoints getEncoding
  cases h : lookupStr (canonicalName R cp) R.definitions with
  | some d => rfl
  | none =>
    cases fuel with
    | zero => rfl
    | succ n =>
      show List.replicate 256 0xfffd = resolveCodepoints R (n + 1) (canonicalName R cp)
      unfold resolveCodepoints
      rw [h]

theorem getEncodingCodepoints_length (R : Registry) (fuel : Nat) (cp : String) :
    (getEncodingCodepoints R fuel cp).length = 256 := by
  rw [getEncodingCodepoints_eq, resolveCodepoints_length]

/-! Helper lemmas about the reverse table scan. -/

theorem findIndex_getElem? (cp : Nat) :
    ∀ (l : List Nat) (b : Nat), findIndex cp l = some b →
      l[b]? = some cp ∧ ∀ b2, b2 < b → l[b2]? ≠ some cp := by
  intro l
  induction l with
  | nil => intro b h; simp [findIndex] at h
  | cons x xs ih =>
    intro b h
    unfold findIndex at h
    by_cases hx : x = cp
    · rw [if_pos hx] at h
      cases h
      exact ⟨by simp [hx], fun b2 hb2 => by omega⟩
    · rw [if_neg hx] at h
      cases hfi : findIndex cp xs with
      | none => rw [hfi] at h; simp at h
      | some b0 =>
        rw [hfi] at h
        simp only [Option.map_some', Option.some.injEq] at h
        obtain ⟨h1, h2⟩ := ih b0 hfi
        subst h
        refine ⟨by simpa using h1, ?_⟩
        intro b2 hb2
        cases b2 with
        | zero => simpa using hx
        | succ b3 =>
          have := h2 b3 (by omega)
          simpa using this

theorem findIndex_eq_none (cp : Nat) :
    ∀ (l : List Nat), findIndex cp l = none → ∀ b : Nat, l[b]? ≠ some cp := by
  intro l
  induction l with
  | nil => intro _ b; simp
  | cons x xs ih =>
    intro h b
    unfold findIndex at h
    by_cases hx : x = cp
    · rw [if_pos hx] at h; cases h
    · rw [if_neg hx] at h
      cases hfi : findIndex cp xs with
      | some b0 => rw [hfi] at h; simp at h
      | none =>
        cases b with
        | zero => simpa using hx
        | succ b2 => simpa using ih hfi b2

theorem findIndex_lt_length (cp : Nat) :
    ∀ (l : List Nat) (b : Nat), findIndex cp l = some b → b < l.length := by
  intro l
  induction l with
  | nil => intro b h; simp [findIndex] at h
  | cons x xs ih =>
    intro b h
    unfold findIndex at h
    by_cases hx : x = cp
    · rw [if_pos hx] at h; cases h; simp
    · rw [if_neg hx] at h
      cases hfi : findIndex cp xs with
      | none => rw [hfi] at h; simp at h
      | some b0 =>
        rw [hfi] at h
        simp only [Option.map_some', Option.some.injEq] at h
        subst h
        have := ih b0 hfi
        simp
        omega

/-! Helper lemmas about the registry and the auto-segmentation loop. -/

theorem lookupStr_mem {α : Type} (k : String) :
    ∀ (l : List (String × α)) (v : α), lookupStr k l = some v → (k, v) ∈ l := by
  intro l
  induction l with
  | nil => intro v h; simp [lookupStr] at h
  | cons kv rest ih =>
    intro v h
    unfold lookupStr at h
    by_cases hk : kv.1 = k
    · rw [if_pos hk] at h
      cases h
      subst hk
      exact List.mem_cons_self _ _
    · rw [if_neg hk] at h
      exact List.mem_cons_of_mem _ (ih v h)

theorem scanCandidates_mem (R : Registry) (fuel : Nat) (cp : Nat) :
    ∀ (cands : List String) (p : String) (pos : Nat),
      scanCandidates R fuel cp cands = some (p, pos) → p ∈ cands := by
  intro cands
  induction cands with
  | nil => intro p pos h; simp [scanCandidates] at h
  | cons cand rest ih =>
    intro p pos h
    unfold scanCandidates at h
    cases hfi : findIndex cp (getEncodingCodepoints R fuel cand) with
    | some b =>
      rw [hfi] at h
      cases h
      simp
    | none =>
      rw [hfi] at h
      exact List.mem_cons_of_mem _ (ih p pos h)

theorem stickyChoice_of_none (R : Registry) (fuel : Nat) (st : AEState) (cp : Nat)
    (h : st.cur.codepage = none) : stickyChoice R fuel st cp = none := by
  unfold stickyChoice; rw [h]

theorem stickyChoice_of_some (R : Registry) (fuel : Nat) (st : AEState) (cp : Nat)
    (p : String) (h : st.cur.codepage = some p) :
    stickyChoice R fuel st cp =
      if p = "" then none
      else
        match findIndex cp (getEncodingCodepoints R fuel p) with
        | some pos => some (p, pos)
        | none => none := by
  unfold stickyChoice; rw [h]

theorem stickyChoice_some (R : Registry) (fuel : Nat) (st : AEState) (cp : Nat)
    (p : String) (pos : Nat) (h : stickyChoice R fuel st cp = some (p, pos)) :
    st.cur.codepage = some p ∧ p ≠ "" := by
  cases hcp : st.cur.codepage with
  | none => rw [stickyChoice_of_none R fuel st cp hcp] at h; cases h
  | some p2 =>
    rw [stickyChoice_of_some R fuel st cp p2 hcp] at h
    by_cases hp2 : p2 = ""
    · rw [if_pos hp2] at h; cases h
    · rw [if_neg hp2] at h
      cases hfi : findIndex cp (getEncodingCodepoints R fuel p2) with
      | none => rw [hfi] at h; cases h
      | some b =>
        rw [hfi] at h
        cases h
        exact ⟨rfl, hp2⟩

/-- The loop invariant of `autoEncode`: the current fragment's codepage is
truthy, or no codepage has been adopted yet and no byte has been buffered
(the initial state). -/
def goodCur (st : AEState) : Prop :=
  truthy st.cur.codepage = true ∨ (st.cur.codepage = none ∧ st.cur.chars = [])

/-- The byte count carried by a loop state: emitted bytes plus the current
fragment's buffer. -/
def stBytes (st : AEState) : Nat :=
  totalBytes st.fragments + st.cur.chars.length

theorem scannedChoice_of_sticky (R : Registry) (fuel : Nat) (cands : List String)
    (st : AEState) (cp : Nat) (r : String × Nat) (h : stickyChoice R fuel st cp = some r) :
    scannedChoice R fuel cands st cp = some r := by
  unfold scannedChoice; rw [h]

theorem scannedChoice_of_scan (R : Registry) (fuel : Nat) (cands : List String)
    (st : AEState) (cp : Nat) (h : stickyChoice R fuel st cp = none) :
    scannedChoice R fuel cands st cp = scanCandidates R fuel cp cands := by
  unfold scannedChoice; rw [h]

theorem chosenCodepage_of_some (R : Registry) (fuel : Nat) (cands : List String)
    (st : AEState) (cp : Nat) (p : String) (pos : Nat)
    (h : scannedChoice R fuel cands st cp = some (p, pos)) :
    chosenCodepage R fuel cands st cp =
      if p = "" then (if truthy st.cur.codepage then st.cur.codepage else cands.head?, 0x3f)
      else (some p, pos % 256) := by
  unfold chosenCodepage; rw [h]

theorem chosenCodepage_of_none (R : Registry) (fuel : Nat) (cands : List String)
    (st : AEState) (cp : Nat) (h : scannedChoice R fuel cands st cp = none) :
    chosenCodepage R fuel cands st cp =
      (if truthy st.cur.codepage then st.cur.codepage else cands.head?, 0x3f) := by
  unfold chosenCodepage; rw [h]

theorem chosenCodepage_truthy (R : Registry) (fuel : Nat) (cands : List String) (st : AEState)
    (cp : Nat) (hne : cands ≠ []) (hall : ∀ c ∈ cands, c ≠ "") :
    ∃ p, (chosenCodepage R fuel cands st cp).1 = some p ∧ p ≠ "" := by
  have hfall : ∃ p, (if truthy st.cur.codepage then st.cur.codepage else cands.head?) = some p ∧
      p ≠ "" := by
    by_cases ht : truthy st.cur.codepage
    · rw [if_pos ht]
      cases hcp : st.cur.codepage with
      | none => rw [hcp] at ht; simp [truthy] at ht
      | some p =>
        refine ⟨p, rfl, ?_⟩
        rw [hcp] at ht
        simpa [truthy] using ht
    · rw [if_neg ht]
      cases hhd : cands.head? with
      | none => rw [List.head?_eq_none_iff] at hhd; exact absurd hhd hne
      | some c0 =>
        exact ⟨c0, rfl, hall c0 (List.mem_of_mem_head? (by rw [hhd]; simp))⟩
  cases hst : stickyChoice R fuel st cp with
  | some r =>
    obtain ⟨p, pos⟩ := r
    obtain ⟨hcp, hp⟩ := stickyChoice_some R fuel st cp p pos hst
    rw [chosenCodepage_of_some R fuel cands st cp p pos
      (scannedChoice_of_sticky R fuel cands st cp (p, pos) hst), if_neg hp]
    exact ⟨p, rfl, hp⟩
  | none =>
    cases hscan : scanCandidates R fuel cp cands with
    | some r =>
      obtain ⟨p, pos⟩ := r
      have hp : p ≠ "" := hall p (scanCandidates_mem R fuel cp cands p pos hscan)
      rw [chosenCodepage_of_some R fuel cands st cp p pos
        ((scannedChoice_of_scan R fuel cands st cp hst).trans hscan), if_neg hp]
      exact ⟨p, rfl, hp⟩
    | none =>
      rw [chosenCodepage_of_none R fuel cands st cp
        ((scannedChoice_of_scan R fuel cands st cp hst).trans hscan)]
      exact hfall

theorem totalBytes_append (l : List Fragment) (f : Fragment) :
    totalBytes (l ++ [f]) = totalBytes l + f.bytes.length := by
  simp [totalBytes]

theorem step_stBytes (R : Registry) (fuel : Nat) (cands : List String) (st : AEState) (cp : Nat)
    (hne : cands ≠ []) (hall : ∀ c ∈ cands, c ≠ "") (hcur : goodCur st) :
    stBytes (step R fuel cands st cp) = stBytes st + 1 ∧ goodCur (step R fuel cands st cp) := by
  obtain ⟨p, hp1, hp2⟩ := chosenCodepage_truthy R fuel cands st cp hne hall
  unfold step
  by_cases heq : st.cur.codepage = (chosenCodepage R fuel cands st cp).1
  · rw [if_pos heq]
    constructor
    · simp [stBytes]
      try omega
    · left
      show truthy st.cur.codepage = true
      rw [heq, hp1]
      simpa [truthy] using hp2
  · rw [if_neg heq]
    constructor
    · by_cases ht : truthy st.cur.codepage
      · rw [if_pos ht]
        simp [stBytes, totalBytes_append]
        try omega
      · rw [if_neg ht]
        rcases hcur with hcur | ⟨hnone, hnil⟩
        · exact absurd hcur ht
        · simp [stBytes, hnil]
    · left
      show truthy (chosenCodepage R fuel cands st cp).1 = true
      rw [hp1]
      simpa [truthy] using hp2

theorem foldl_stBytes (R : Registry) (fuel : Nat) (cands : List String)
    (hne : cands ≠ []) (hall : ∀ c ∈ cands, c ≠ "") :
    ∀ (cps : List Nat) (st : AEState), goodCur st →
      stBytes (cps.foldl (step R fuel cands) st) = stBytes st + cps.length ∧
      goodCur (cps.foldl (step R fuel cands) st) := by
  intro cps
  induction cps with
  | nil => intro st h; exact ⟨rfl, h⟩
  | cons c rest ih =>
    intro st h
    obtain ⟨h1, h2⟩ := step_stBytes R fuel cands st c hne hall h
    rw [List.foldl_cons]
    obtain ⟨h3, h4⟩ := ih (step R fuel cands st c) h2
    refine ⟨?_, h4⟩
    rw [h3, h1]
    simp
    omega

theorem flush_totalBytes (st : AEState) (h : goodCur st) :
    totalBytes (flush st) = stBytes st := by
  unfold flush
  by_cases ht : truthy st.cur.codepage
  · rw [if_pos ht, totalBytes_append]
    rfl
  · rw [if_neg ht]
    rcases h with h | ⟨hnone, hnil⟩
    · exact absurd h ht
    · simp [stBytes, hnil]

theorem step_no_candidates (R : Registry) (fuel : Nat) (st : AEState) (cp : Nat)
    (h : st.cur.codepage = none) :
    step R fuel [] st cp = { st with cur := { st.cur with chars := st.cur.chars ++ [0x3f] } } := by
  have hchosen : chosenCodepage R fuel [] st cp = (none, 0x3f) := by
    rw [chosenCodepage_of_none R fuel [] st cp
      ((scannedChoice_of_scan R fuel [] st cp (stickyChoice_of_none R fuel st cp h)).trans rfl)]
    rw [h]
    simp [truthy]
  unfold step
  rw [hchosen, if_pos (by rw [h])]

theorem foldl_no_candidates (R : Registry) (fuel : Nat) :
    ∀ (cps : List Nat) (st : AEState), st.cur.codepage = none →
      (cps.foldl (step R fuel []) st).fragments = st.fragments ∧
      (cps.foldl (step R fuel []) st).cur.codepage = none := by
  intro cps
  induction cps with
  | nil => intro st h; exact ⟨rfl, h⟩
  | cons c rest ih =>
    intro st h
    rw [List.foldl_cons, step_no_candidates R fuel st c h]
    exact ih _ h

/-! Helper lemmas for the table-entry validity invariant. -/

theorem sparseCells_valid (v : List Entry) (hv : ∀ e ∈ v, entryValid e) (x : Nat)
    (hx : some x ∈ sparseCells v) : x ≤ 0x10FFFF := by
  unfold sparseCells at hx
  rw [List.mem_map] at hx
  obtain ⟨idx, _, hidx⟩ := hx
  cases hrow : rowAt v (idx / 16) with
  | none => rw [hrow] at hidx; cases hidx
  | some r =>
    rw [hrow] at hidx
    have hmem : Entry.row r ∈ v := by
      unfold rowAt at hrow
      cases hget : v[idx / 16]? with
      | none => rw [hget] at hrow; cases hrow
      | some e =>
        rw [hget] at hrow
        cases e with
        | num n => cases hrow
        | absent => cases hrow
        | row r2 =>
          cases hrow
          exact List.getElem?_mem hget
    have hcell : some x ∈ r := by
      rw [Option.join_eq_some] at hidx
      exact List.getElem?_mem hidx
    have := hv (Entry.row r) hmem
    exact this (some x) hcell

theorem denseCells_valid (v : List Entry) (hv : ∀ e ∈ v, entryValid e) (x : Nat)
    (hx : some x ∈ v.map entryNum) : x ≤ 0x10FFFF := by
  rw [List.mem_map] at hx
  obtain ⟨e, hmem, he⟩ := hx
  cases e with
  | num n =>
    cases he
    exact hv (Entry.num x) hmem
  | row r => cases he
  | absent => cases he

theorem applyValue_valid (d : Codepage) (tbl : List Nat) (hd : cpageValid d)
    (htbl : ∀ x ∈ tbl, x ≤ 0x10FFFF ∨ x = 0xFFFD) :
    ∀ x ∈ applyValue d tbl, x ≤ 0x10FFFF ∨ x = 0xFFFD := by
  intro x hx
  cases hv : d.value with
  | none =>
    rw [applyValue_of_none d tbl hv] at hx
    exact htbl x hx
  | some v =>
    have hentries : ∀ e ∈ v, entryValid e := by
      unfold cpageValid at hd
      rw [hv] at hd
      exact hd.1
    rw [applyValue_of_some d v tbl hv] at hx
    by_cases hlen : v.length = 16
    · rw [if_pos hlen] at hx
      rcases applyCells_mem _ _ _ _ hx with h2 | h2
      · exact htbl x h2
      · exact Or.inl (sparseCells_valid v hentries x h2)
    · rw [if_neg hlen] at hx
      rcases applyCells_mem _ _ _ _ hx with h2 | h2
      · exact htbl x h2
      · exact Or.inl (denseCells_valid v hentries x h2)

theorem resolveCodepoints_valid (R : Registry) (hR : ValidRegistry R) :
    ∀ (fuel : Nat) (cp : String) (x : Nat),
      x ∈ resolveCodepoints R fuel cp → x ≤ 0x10FFFF ∨ x = 0xFFFD := by
  intro fuel
  induction fuel with
  | zero =>
    intro cp x hx
    rw [resolveCodepoints_zero] at hx
    exact Or.inr (List.eq_of_mem_replicate hx)
  | succ n ih =>
    intro cp x hx
    cases h : lookupStr cp R.definitions with
    | none =>
      rw [resolveCodepoints_succ_unknown R n cp h] at hx
      exact Or.inr (List.eq_of_mem_replicate hx)
    | some d =>
      have hd : cpageValid d := hR (cp, d) (lookupStr_mem cp R.definitions d h)
      cases hext : d.ext with
      | none =>
        rw [resolveCodepoints_succ_base R n cp d h hext] at hx
        exact applyValue_valid d _ hd
          (fun y hy => Or.inr (List.eq_of_mem_replicate hy)) x hx
      | some q =>
        rw [resolveCodepoints_succ_ext R n cp q d h hext] at hx
        exact applyValue_valid d _ hd (fun y hy => ih _ y hy) x hx

/-! Claim theorems. -/

/-- C1 (amended): for every registry, fuel, input and codepage identifier,
`encode` returns exactly one byte per UTF-16 code unit of the input, so the
output length equals the input's code-unit count.  (The original claim —
output length equals the code-point count — fails on astral characters,
which occupy two code units and yield two bytes.) -/
theorem c1_amended_encode_length (R : Registry) (fuel : Nat) (s : List Nat) (p : String) :
    (encode R fuel s p).length = s.length := by
  unfold encode
  rw [List.length_map, List.length_range]

/-- C1 (counterexample): on the single astral code point U+1F600 (one
Unicode code point, two UTF-16 code units) `encode` emits two bytes, so the
output length differs from the input's code-point count. -/
theorem c1_counterexample :
    (encode exampleR 2 emoji "ascii").length ≠ codePointCount emoji := by
  decide

/-- C2 (amended): for every registry, fuel and input, `autoEncode` with an
empty candidate list returns the empty fragment list — it does not fail
with an error; every character is buffered in a fragment that never
receives a codepage and is dropped by the final flush. -/
theorem c2_amended_empty_candidates (R : Registry) (fuel : Nat) (s : List Nat) :
    autoEncode R fuel s [] = [] := by
  unfold autoEncode
  obtain ⟨h1, h2⟩ := foldl_no_candidates R fuel ((List.range s.length).map (codePointAt s))
    { fragments := [], cur := { codepage := none, chars := [] } } rfl
  unfold flush
  rw [h2]
  simpa [truthy] using h1

/-- C2 (counterexample): on the one-character input "a" with an empty
candidate list, `autoEncode` returns the empty fragment list — a normal
result, not a `NoCandidates` failure (no such error exists in the code). -/
theorem c2_counterexample : autoEncode exampleR 1 [97] [] = [] := by
  decide

/-- C3: at every code-unit position of the input, `encode` emits the lowest
byte index whose resolved-table entry equals the code point read at that
position, and emits 0x3F when no table entry equals it. -/
theorem c3_encode_lowest_index (R : Registry) (fuel : Nat) (s : List Nat) (p : String)
    (c : Nat) (hc : c < s.length) :
    ((∃ b : Nat, (getEncodingCodepoints R fuel p)[b]? = some (codePointAt s c)) →
      ∃ b : Nat, (encode R fuel s p)[c]? = some b ∧
        (getEncodingCodepoints R fuel p)[b]? = some (codePointAt s c) ∧
        ∀ b2 : Nat, b2 < b → (getEncodingCodepoints R fuel p)[b2]? ≠ some (codePointAt s c)) ∧
    ((∀ b : Nat, (getEncodingCodepoints R fuel p)[b]? ≠ some (codePointAt s c)) →
      (encode R fuel s p)[c]? = some 0x3f) := by
  have henc : (encode R fuel s p)[c]? =
      some (match findIndex (codePointAt s c) (getEncodingCodepoints R fuel p) with
            | some pos => pos % 256
            | none => 0x3f) := by
    unfold encode
    rw [List.getElem?_map, List.getElem?_range hc]
    rfl
  constructor
  · rintro ⟨b, hb⟩
    cases hfi : findIndex (codePointAt s c) (getEncodingCodepoints R fuel p) with
    | none => exact absurd hb (findIndex_eq_none _ _ hfi b)
    | some pos =>
      obtain ⟨h1, h2⟩ := findIndex_getElem? _ _ _ hfi
      have hlt : pos < 256 := by
        have h3 := findIndex_lt_length _ _ _ hfi
        rwa [getEncodingCodepoints_length] at h3
      refine ⟨pos, ?_, h1, h2⟩
      rw [henc, hfi]
      show some (pos % 256) = some pos
      rw [Nat.mod_eq_of_lt hlt]
  · intro hnone
    cases hfi : findIndex (codePointAt s c) (getEncodingCodepoints R fuel p) with
    | some pos =>
      obtain ⟨h1, _⟩ := findIndex_getElem? _ _ _ hfi
      exact absurd h1 (hnone pos)
    | none => rw [henc, hfi]

/-- C3 (witness): position 0 of the one-character input "h" on "ascii". -/
theorem c3_witness :
    (0 : Nat) < ([104] : List Nat).length ∧
    (((∃ b : Nat, (getEncodingCodepoints exampleR 1 "ascii")[b]? = some (codePointAt [104] 0)) →
      ∃ b : Nat, (encode exampleR 1 [104] "ascii")[0]? = some b ∧
        (getEncodingCodepoints exampleR 1 "ascii")[b]? = some (codePointAt [104] 0) ∧
        ∀ b2 : Nat, b2 < b →
          (getEncodingCodepoints exampleR 1 "ascii")[b2]? ≠ some (codePointAt [104] 0)) ∧
    ((∀ b : Nat, (getEncodingCodepoints exampleR 1 "ascii")[b]? ≠ some (codePointAt [104] 0)) →
      (encode exampleR 1 [104] "ascii")[0]? = some 0x3f)) :=
  ⟨by decide, c3_encode_lowest_index exampleR 1 [104] "ascii" 0 (by decide)⟩

/-- C4: when the definition of `p` extends `q`, every byte index that
`p`'s own `value` does not override resolves to the same entry as the
resolved table of `q` (the parent table, one fuel step below, resolved
through `getEncoding`'s alias-and-fallback canonicalization exactly as the
source does). -/
theorem c4_extends_overlay (R : Registry) (fuel : Nat) (p q : String) (d : Codepage)
    (hp : lookupStr p R.definitions = some d) (hq : d.ext = some q)
    (i : Nat) (hi : i < 256) (hno : overrideAt d i = none) :
    (resolveCodepoints R (fuel + 1) p)[i]? = (getEncodingCodepoints R fuel q)[i]? := by
  rw [getEncodingCodepoints_eq, resolveCodepoints_succ_ext R fuel p q d hp hq,
    applyValue_getElem? d _ i (by rw [resolveCodepoints_length]; exact hi), hno]

/-- C4 (witness): the "s1" codepage extends "ascii" and supplies no
override at index 20. -/
theorem c4_witness :
    lookupStr "s1" exampleR.definitions = some sparse1Def ∧
    sparse1Def.ext = some "ascii" ∧
    (20 : Nat) < 256 ∧
    overrideAt sparse1Def 20 = none ∧
    (resolveCodepoints exampleR 2 "s1")[20]? = (getEncodingCodepoints exampleR 1 "ascii")[20]? :=
  ⟨by decide, by decide, by decide, by decide,
   c4_extends_overlay exampleR 1 "s1" "ascii" sparse1Def (by decide) (by decide) 20
     (by decide) (by decide)⟩

/-- C5: a `value` payload is decoded purely by its shape.  With exactly 16
top-level slots it is sparse-diff form: each present numeric sub-slot `j`
of a present row `i` lands at table index `i * 16 + j`, everything else
keeps the base entry.  Otherwise it is dense form: each numeric entry `k`
lands at table index `offset + k`, everything else keeps the base entry. -/
theorem c5_value_decode_shape (d : Codepage) (v : List Entry) (tbl : List Nat)
    (hv : d.value = some v) (htbl : tbl.length = 256) :
    (v.length = 16 → ∀ i j : Nat, i < 16 → j < 16 →
      (applyValue d tbl)[i * 16 + j]? =
        match rowAt v i with
        | some r =>
          (match (r[j]?).join with
           | some n => some n
           | none => tbl[i * 16 + j]?)
        | none => tbl[i * 16 + j]?) ∧
    (v.length ≠ 16 → ∀ k : Nat, k < v.length → d.offset.getD 0 + k < 256 →
      (applyValue d tbl)[d.offset.getD 0 + k]? =
        match numAt v k with
        | some n => some n
        | none => tbl[d.offset.getD 0 + k]?) := by
  constructor
  · intro hlen i j hi hj
    rw [applyValue_of_some d v tbl hv, if_pos hlen, applyCells_getElem?]
    have hidx : i * 16 + j < 256 := by omega
    have hcell : cellOverride 0 (sparseCells v) (i * 16 + j) =
        match rowAt v i with
        | some r => (r[j]?).join
        | none => none := by
      unfold cellOverride
      rw [if_pos ⟨Nat.zero_le _, by rw [Nat.zero_add, sparseCells_length]; exact hidx⟩,
        Nat.sub_zero]
      unfold sparseCells
      rw [List.getElem?_map, List.getElem?_range hidx]
      have hdiv : (i * 16 + j) / 16 = i := by omega
      have hmod : (i * 16 + j) % 16 = j := by omega
      show (match rowAt v ((i * 16 + j) / 16) with
            | some r => (r[(i * 16 + j) % 16]?).join
            | none => none) = _
      rw [hdiv, hmod]
    rw [hcell]
    cases hrow : rowAt v i with
    | none => rfl
    | some r =>
      show (match (r[j]?).join with
            | some n => if i * 16 + j < tbl.length then some n else none
            | none => tbl[i * 16 + j]?) =
           (match (r[j]?).join with
            | some n => some n
            | none => tbl[i * 16 + j]?)
      generalize (r[j]?).join = o
      cases o with
      | none => rfl
      | some n => exact if_pos (by rw [htbl]; exact hidx)
  · intro hlen k hk hoff
    rw [applyValue_of_some d v tbl hv, if_neg hlen, applyCells_getElem?]
    have hcell : cellOverride (d.offset.getD 0) (v.map entryNum) (d.offset.getD 0 + k) =
        numAt v k := by
      unfold cellOverride
      rw [if_pos ⟨Nat.le_add_right _ _, by rw [List.length_map]; omega⟩,
        Nat.add_sub_cancel_left, List.getElem?_map]
      unfold numAt
      generalize v[k]? = o
      cases o with
      | none => rfl
      | some e => rfl
    rw [hcell]
    generalize hnum : numAt v k = o
    cases o with
    | none => rfl
    | some n => exact if_pos (by rw [htbl]; exact hoff)

/-- C5 (witness): the sparse payload of "s1" (16 slots) and the dense
payload of "d1" (3 slots at offset 65), both over a concrete base table. -/
theorem c5_witness :
    (sparse1Def.value = some (Entry.row [some 0x2500, none] :: List.replicate 15 Entry.absent) ∧
     (List.replicate 256 7).length = 256 ∧
     ((Entry.row [some 0x2500, none] :: List.replicate 15 Entry.absent).length = 16 →
      ∀ i j : Nat, i < 16 → j < 16 →
        (applyValue sparse1Def (List.replicate 256 7))[i * 16 + j]? =
          match rowAt (Entry.row [some 0x2500, none] :: List.replicate 15 Entry.absent) i with
          | some r =>
            (match (r[j]?).join with
             | some n => some n
             | none => (List.replicate 256 7 : List Nat)[i * 16 + j]?)
          | none => (List.replicate 256 7 : List Nat)[i * 16 + j]?)) ∧
    (dense1Def.value = some [Entry.num 0x100, Entry.absent, Entry.num 0x101] ∧
     ([Entry.num 0x100, Entry.absent, Entry.num 0x101].length ≠ 16 →
      ∀ k : Nat, k < [Entry.num 0x100, Entry.absent, Entry.num 0x101].length →
        dense1Def.offset.getD 0 + k < 256 →
        (applyValue dense1Def (List.replicate 256 7))[dense1Def.offset.getD 0 + k]? =
          match numAt [Entry.num 0x100, Entry.absent, Entry.num 0x101] k with
          | some n => some n
          | none => (List.replicate 256 7 : List Nat)[dense1Def.offset.getD 0 + k]?)) :=
  ⟨⟨by decide, by decide,
    (c5_value_decode_shape sparse1Def _ (List.replicate 256 7) (by decide) (by decide)).1⟩,
   ⟨by decide,
    (c5_value_decode_shape dense1Def _ (List.replicate 256 7) (by decide) (by decide)).2⟩⟩

/-- C6 (stickiness): whenever the current fragment has a truthy codepage
`p` assigned and `p`'s resolved table maps the next code point, the
iteration keeps codepage `p`, closes no fragment, and appends the found
position — for every candidate list, so no candidate (of any rank) can
cause a switch. -/
theorem c6_stickiness (R : Registry) (fuel : Nat) (cands : List String) (st : AEState)
    (cp : Nat) (p : String) (pos : Nat)
    (hassigned : st.cur.codepage = some p) (hp : p ≠ "")
    (hmaps : findIndex cp (getEncodingCodepoints R fuel p) = some pos) :
    step R fuel cands st cp =
      { st with cur := { st.cur with chars := st.cur.chars ++ [pos % 256] } } := by
  have hsticky : stickyChoice R fuel st cp = some (p, pos) := by
    rw [stickyChoice_of_some R fuel st cp p hassigned, if_neg hp, hmaps]
  have hchosen : chosenCodepage R fuel cands st cp = (some p, pos % 256) := by
    rw [chosenCodepage_of_some R fuel cands st cp p pos
      (scannedChoice_of_sticky R fuel cands st cp (p, pos) hsticky), if_neg hp]
  unfold step
  rw [hchosen, if_pos (by rw [hassigned])]

/-- C6 (witness): a state already on "ascii", next code point "h" (mapped
by ascii at 104), with a candidate list whose first entry "d1" also exists
— the step stays on "ascii". -/
theorem c6_witness :
    ({ fragments := [], cur := { codepage := some "ascii", chars := [1] } } :
      AEState).cur.codepage = some "ascii" ∧
    ("ascii" : String) ≠ "" ∧
    findIndex 104 (getEncodingCodepoints exampleR 1 "ascii") = some 104 ∧
    step exampleR 1 ["d1"]
      { fragments := [], cur := { codepage := some "ascii", chars := [1] } } 104 =
      { fragments := [], cur := { codepage := some "ascii", chars := [1, 104 % 256] } } :=
  ⟨by decide, by decide, by decide,
   c6_stickiness exampleR 1 ["d1"]
     { fragments := [], cur := { codepage := some "ascii", chars := [1] } } 104 "ascii" 104
     (by decide) (by decide) (by decide)⟩

/-- C7 (amended): for every input and every non-empty candidate list whose
identifiers are all non-empty strings, the fragment byte lengths of
`autoEncode` sum to the number of UTF-16 code units of the input.  (The
original code-point-count claim fails on astral characters, and an
empty-string candidate identifier is falsy in the source's truthiness
tests and makes whole fragments disappear.) -/
theorem c7_amended_total_bytes (R : Registry) (fuel : Nat) (s : List Nat) (cands : List String)
    (hne : cands ≠ []) (hall : ∀ c ∈ cands, c ≠ "") :
    totalBytes (autoEncode R fuel s cands) = s.length := by
  unfold autoEncode
  obtain ⟨h1, h2⟩ := foldl_stBytes R fuel cands hne hall
    ((List.range s.length).map (codePointAt s))
    { fragments := [], cur := { codepage := none, chars := [] } }
    (Or.inr ⟨rfl, rfl⟩)
  rw [flush_totalBytes _ h2, h1]
  simp [stBytes, totalBytes]

/-- C7 (counterexample): on the single astral code point U+1F600 with the
non-empty candidate list ["ascii"], the fragments hold two bytes while the
input has one code point. -/
theorem c7_counterexample :
    totalBytes (autoEncode exampleR 2 emoji ["ascii"]) ≠ codePointCount emoji := by
  decide

/-- C7 (witness): a two-character ASCII input over the candidate list
["ascii"]. -/
theorem c7_witness :
    (["ascii"] : List String) ≠ [] ∧
    (∀ c ∈ (["ascii"] : List String), c ≠ "") ∧
    totalBytes (autoEncode exampleR 1 [104, 105] ["ascii"]) = ([104, 105] : List Nat).length :=
  ⟨by decide, by decide,
   c7_amended_total_bytes exampleR 1 [104, 105] ["ascii"] (by decide) (by decide)⟩

/-- C8: over a well-formed registry (validity of the generated data,
modelled from the spec), every defined codepage resolves to a table of
exactly 256 entries, each a Unicode code point or the sentinel 0xFFFD, and
a definition without `extends` is resolved by overlaying its value on 256
sentinel entries. -/
theorem c8_table_invariant (R : Registry) (fuel : Nat) (p : String) (d : Codepage)
    (hR : ValidRegistry R) (hp : lookupStr p R.definitions = some d) :
    (resolveCodepoints R fuel p).length = 256 ∧
    (∀ x ∈ resolveCodepoints R fuel p, x ≤ 0x10FFFF ∨ x = 0xFFFD) ∧
    (d.ext = none → resolveCodepoints R (fuel + 1) p = applyValue d (List.replicate 256 0xfffd)) := by
  refine ⟨resolveCodepoints_length R fuel p, resolveCodepoints_valid R hR fuel p, ?_⟩
  intro hext
  exact resolveCodepoints_succ_base R fuel p d hp hext

/-- C8 (witness): the example registry is valid and "ascii" is defined. -/
theorem c8_witness :
    ValidRegistry exampleR ∧
    lookupStr "ascii" exampleR.definitions = some asciiDef ∧
    ((resolveCodepoints exampleR 1 "ascii").length = 256 ∧
     (∀ x ∈ resolveCodepoints exampleR 1 "ascii", x ≤ 0x10FFFF ∨ x = 0xFFFD) ∧
     (asciiDef.ext = none →
      resolveCodepoints exampleR 2 "ascii" = applyValue asciiDef (List.replicate 256 0xfffd))) :=
  ⟨by decide, by decide,
   c8_table_invariant exampleR 1 "ascii" asciiDef (by decide) (by decide)⟩

/-- C9: `getEncoding` applies the alias map first and, when the resulting
identifier is not in the definitions registry, silently substitutes
"ascii": the returned metadata and table are exactly those of "ascii", and
`encode` inherits the fallback.  The side conditions — "ascii" itself is
registered and is not an alias key — are facts of the generated data. -/
theorem c9_ascii_fallback (R : Registry) (fuel : Nat) (cp : String) (s : List Nat)
    (hascii : (lookupStr "ascii" R.definitions).isSome = true)
    (halias : lookupStr "ascii" R.aliases = none)
    (hmiss : lookupStr (match lookupStr cp R.aliases with | some c => c | none => cp)
      R.definitions = none) :
    getEncoding R fuel cp = getEncoding R fuel "ascii" ∧
    encode R fuel s cp = encode R fuel s "ascii" := by
  have hcanon : canonicalName R cp = "ascii" := by
    unfold canonicalName
    simp only [hmiss, Option.isSome_none, Bool.false_eq_true, if_false]
  have hcanon2 : canonicalName R "ascii" = "ascii" := by
    unfold canonicalName
    simp only [halias, hascii, if_true]
  constructor
  · unfold getEncoding
    rw [hcanon, hcanon2]
  · unfold encode getEncodingCodepoints getEncoding
    rw [hcanon, hcanon2]

/-- C9 (witness): the unknown identifier "bogus" on the example registry
falls back to "ascii" for both `getEncoding` and `encode`. -/
theorem c9_witness :
    (lookupStr "ascii" exampleR.definitions).isSome = true ∧
    lookupStr "ascii" exampleR.aliases = none ∧
    lookupStr (match lookupStr "bogus" exampleR.aliases with
               | some c => c
               | none => "bogus") exampleR.definitions = none ∧
    (getEncoding exampleR 1 "bogus" = getEncoding exampleR 1 "ascii" ∧
     encode exampleR 1 [104] "bogus" = encode exampleR 1 [104] "ascii") :=
  ⟨by decide, by decide, by decide,
   c9_ascii_fallback exampleR 1 "bogus" [104] (by decide) (by decide) (by decide)⟩

end CodepageEncoder
